import Mathlib

/-!
# Bones Engine: actor directory, frame timing and grid movement

A shallow embedding of `Game::AddActor`, `Game::RemoveActor` and
`Game::UpdateGame` (src/Bones Engine/Game.cpp) and of `MoveComponent::Update`
(src/MoveComponent.cpp), followed by the properties proved about them.

Conventions of the embedding:
* an `Actor*` is modelled by its identity, a natural number;
* a `std::vector<Actor*>` is modelled by the list of its elements, front first;
* `Uint32` values are naturals taken modulo `2 ^ 32`;
* `float` values are modelled by exact rationals.
-/

namespace Bones

/-- An actor pointer, compared by identity. -/
abbrev Actor := Nat

/-- The members of `Game` that the actor directory uses (Game.h, lines 92, 93, 111). -/
structure Game where
  actors : List Actor
  pendingActors : List Actor
  updatingActors : Bool
deriving DecidableEq, Repr

/-- The call `std::iter_swap(iter, v.end() - 1)` on positions `i` and `j`: the two slots
exchange their contents. Positions outside the vector leave it as it is. -/
def iterSwap (v : List Actor) (i j : Nat) : List Actor :=
  match v[i]?, v[j]? with
  | some x, some y => (v.set i y).set j x
  | _, _ => v

/-- The body shared by both halves of `Game::RemoveActor` (Game.cpp, lines 193-197 and 199-203):
`std::find` returns the position of the first occurrence, or the end; when it is not the
end, the slot is swapped with the last one and the last slot is popped. -/
def swapRemove (v : List Actor) (actor : Actor) : List Actor :=
  let iter := v.indexOf actor
  if iter < v.length then
    (iterSwap v iter (v.length - 1)).dropLast
  else
    v

/-- The function `Game::AddActor` (Game.cpp, lines 183-190). -/
def AddActor (g : Game) (actor : Actor) : Game :=
  if g.updatingActors then
    { g with pendingActors := g.pendingActors ++ [actor] }
  else
    { g with actors := g.actors ++ [actor] }

/-- The function `Game::RemoveActor` (Game.cpp, lines 192-204): first the pending queue,
then, independently, the live set. -/
def RemoveActor (g : Game) (actor : Actor) : Game :=
  let g1 := { g with pendingActors := swapRemove g.pendingActors actor }
  { g1 with actors := swapRemove g1.actors actor }

/-! ## The update pass of `Game::UpdateGame` -/

/-- A request that an actor's `Update` makes of the game while the pass runs. -/
inductive Call where
  | AddActor (actor : Actor)
  | RemoveActor (actor : Actor)
deriving DecidableEq, Repr

/-- The state of the loop `for (auto actor : actors) actor->Update(deltaTime)`
(Game.cpp, lines 82-84).

The range-based `for` fixes its begin and end iterators before the first iteration. While
`updatingActors` is true nothing is appended to `actors`, so its buffer is never reallocated;
`RemoveActor` shrinks the vector by `pop_back`, which leaves the buffer slot it gives up
holding the pointer that `iter_swap` has just put there. `stale` lists those given-up slots,
nearest to the current end first: the loop still walks over them.

* `updated` : the actors on which `Update` has been called, in call order;
* `added` : the actors that have been passed to `AddActor`, in call order. -/
structure Pass where
  game : Game
  stale : List Actor
  updated : List Actor
  added : List Actor
deriving DecidableEq, Repr

/-- One request made from inside `Actor::Update`, carried out by the game at once. -/
def Pass.call (s : Pass) : Call → Pass
  | Call.AddActor actor =>
    { s with game := AddActor s.game actor, added := s.added ++ [actor] }
  | Call.RemoveActor actor =>
    { s with
      game := RemoveActor s.game actor,
      stale := if actor ∈ s.game.actors then actor :: s.stale else s.stale }

/-- The loop of lines 82-84 with `n` slots left before the end iterator and the current iterator
at slot `i`. `update i actor g` is the sequence of requests that the `Update` call of the
`i`-th iteration, made on `actor` when the game is in state `g`, issues. -/
def updateLoop (update : Nat → Actor → Game → List Call) : Nat → Nat → Pass → Pass
  | 0, _, s => s
  | n + 1, i, s =>
    match (s.game.actors ++ s.stale)[i]? with
    | none => s
    | some actor =>
      updateLoop update n (i + 1)
        ((update i actor s.game).foldl Pass.call { s with updated := s.updated ++ [actor] })

/-- Lines 81-84 of `Game::UpdateGame`: raise `updatingActors` and run the loop over the live
set; the end iterator is fixed at the size the live set has when the loop starts. -/
def updatePass (update : Nat → Actor → Game → List Call) (g : Game) : Pass :=
  updateLoop update g.actors.length 0
    { game := { g with updatingActors := true }, stale := [], updated := [], added := [] }

/-- The invariant of the update loop relative to the live set `live` at the start of the pass:
the flag is set, and every slot the loop can still read, as well as every actor updated so far,
comes from `live`. -/
def PassInv (live : List Actor) (s : Pass) : Prop :=
  s.game.updatingActors = true ∧
  (∀ x ∈ s.game.actors, x ∈ live) ∧
  (∀ x ∈ s.stale, x ∈ live) ∧
  (∀ x ∈ s.updated, x ∈ live)

/-- A behaviour for the update pass: the `Update` of actor 1 passes actor 2, which may already
be live, to `AddActor`; no other actor makes a request. -/
def addsActor2 : Nat → Actor → Game → List Call :=
  fun _ actor _ => if actor = 1 then [Call.AddActor 2] else []

/-- A behaviour for the update pass: the `Update` of actor 1 removes actor 1 from the game and
passes actor 3 to `AddActor`; no other actor makes a request. -/
def removesSelfAddsActor3 : Nat → Actor → Game → List Call :=
  fun _ actor _ => if actor = 1 then [Call.RemoveActor 1, Call.AddActor 3] else []

/-! ## The rest of `Game::UpdateGame`: pending drain and dead reap -/

/-- Modelled from the spec: `Actor.h` is not among the sources. The spec's data model gives an
actor's state as one of Active, Paused, Dead; `Game::UpdateGame` compares it with
`Actor::Dead`. -/
inductive ActorState where
  | Active
  | Paused
  | Dead
deriving DecidableEq, Repr

/-- What `Game::UpdateGame` does to actors after the update pass, in program order. -/
inductive Event where
  | ComputeWorldTransform (actor : Actor)
  | emplace_back (actor : Actor)
  | clear
  | delete (actor : Actor)
deriving DecidableEq, Repr

/-- Lines 89-93: every pending actor has its world transform computed and is appended to
`actors`; then `pendingActors` is cleared. Returns the game and the events in order. -/
def drainPending (g : Game) : Game × List Event :=
  let r := g.pendingActors.foldl
    (fun (acc : List Actor × List Event) pending =>
      (acc.1 ++ [pending],
       acc.2 ++ [Event.ComputeWorldTransform pending, Event.emplace_back pending]))
    (g.actors, [])
  ({ g with actors := r.1, pendingActors := [] }, r.2 ++ [Event.clear])

/-- Lines 96-101: the temporary vector `deadActors`. `GetState` reads an actor's state at the
time of the scan. -/
def collectDead (GetState : Actor → ActorState) (actors : List Actor) : List Actor :=
  actors.foldl
    (fun deadActors actor =>
      if GetState actor = ActorState.Dead then deadActors ++ [actor] else deadActors)
    []

/-- Lines 104-106: `delete` on every collected actor, in order. The destructor belongs to
`Actor.cpp`, which is not among the sources; only the fact of the deletion is recorded. -/
def deleteDead (deadActors : List Actor) : List Event :=
  deadActors.foldl (fun log actor => log ++ [Event.delete actor]) []

/-- Lines 86-106 of `Game::UpdateGame`, from the end of the update pass on. Returns the game as
it stands when the scan for dead actors starts, and all events in order. -/
def afterPass (GetState : Actor → ActorState) (g : Game) : Game × List Event :=
  let g0 := { g with updatingActors := false }
  let d := drainPending g0
  let deadActors := collectDead GetState d.1.actors
  (d.1, d.2 ++ deleteDead deadActors)

/-- The actor part of `Game::UpdateGame` (lines 81-106): the update pass followed by the pending
drain and the dead reap. `GetState` reads the actors' states as the pass has left them. -/
def updateActors (update : Nat → Actor → Game → List Call) (GetState : Actor → ActorState)
    (g : Game) : Game × List Event :=
  afterPass GetState (updatePass update g).game

/-! ## Delta time -/

/-- `Uint32` subtraction. -/
def subU32 (a b : Nat) : Nat := (a % 2 ^ 32 + (2 ^ 32 - b % 2 ^ 32)) % 2 ^ 32

/-- The cast `(Sint32)x` of a `Uint32` value. -/
def toSint32 (x : Nat) : Int :=
  if x % 2 ^ 32 < 2 ^ 31 then (x % 2 ^ 32 : Nat) else ((x % 2 ^ 32 : Nat) : Int) - 2 ^ 32

/-- The SDL2 macro `SDL_TICKS_PASSED(A, B)`, which `SDL_timer.h` defines as
`((Sint32)((B) - (A)) <= 0)`. -/
def SDL_TICKS_PASSED (A B : Nat) : Bool := decide (toSint32 (subU32 B A) ≤ 0)

/-- The busy-wait of lines 69-70. `SDL_GetTicks k` is the reading returned by the `k`-th call
of the clock (counting from 0). With `fuel` iterations allowed and the next call being the
`k`-th, returns the index of the reading that ends the wait. -/
def busyWait (SDL_GetTicks : Nat → Nat) (ticksCount : Nat) : Nat → Nat → Option Nat
  | 0, _ => none
  | fuel + 1, k =>
    if SDL_TICKS_PASSED (SDL_GetTicks k) ((ticksCount + 16) % 2 ^ 32) then some k
    else busyWait SDL_GetTicks ticksCount fuel (k + 1)

/-- The outcome of lines 69-78: the delta time in seconds, the new `ticksCount`, and the number
of clock readings taken. -/
structure Tick where
  deltaTime : ℚ
  ticksCount : Nat
  readings : Nat
deriving DecidableEq

/-- Lines 69-78 of `Game::UpdateGame`. The `float` delta is an exact rational here; `0.05f` is
`1 / 20`. -/
def computeDeltaTime (SDL_GetTicks : Nat → Nat) (ticksCount : Nat) (fuel : Nat) : Option Tick :=
  match busyWait SDL_GetTicks ticksCount fuel 0 with
  | none => none
  | some k =>
    let deltaTime : ℚ := (subU32 (SDL_GetTicks (k + 1)) ticksCount : ℚ) / 1000
    let deltaTime : ℚ := if deltaTime > 1 / 20 then 1 / 20 else deltaTime
    some { deltaTime := deltaTime, ticksCount := SDL_GetTicks (k + 2), readings := k + 3 }

/-- A clock that reads 100 ms at first and advances 5 ms between consecutive readings, until it
stops at 1000 ms. -/
def steadyClock : Nat → Nat := fun k => min (100 + 5 * k) 1000

/-! ## `MoveComponent::Update` -/

theorem indexOf_split (l1 l2 : List Actor) (a : Actor) (h : a ∉ l1) :
    (l1 ++ a :: l2).indexOf a = l1.length := by
  rw [List.indexOf_append_of_not_mem h, List.indexOf_cons_self]; rfl

/-- Removing the element that sits in the last slot just pops it. -/
theorem swapRemove_last (l1 : List Actor) (a : Actor) (h : a ∉ l1) :
    swapRemove (l1 ++ [a]) a = l1 := by
  unfold swapRemove
  simp only [indexOf_split l1 [] a h]
  simp [iterSwap]

/-- Removing an element that is not in the last slot moves the last element into its slot. -/
theorem swapRemove_mid (l1 l2 : List Actor) (a z : Actor) (h : a ∉ l1) :
    swapRemove (l1 ++ a :: (l2 ++ [z])) a = l1 ++ z :: l2 := by
  unfold swapRemove
  simp only [indexOf_split l1 (l2 ++ [z]) a h]
  have hlen : (l1 ++ a :: (l2 ++ [z])).length - 1 = l1.length + (l2.length + 1) := by
    simp
  have h1 : (l1 ++ a :: (l2 ++ [z]))[l1.length]? = some a := by
    rw [List.getElem?_append_right (le_refl _)]
    simp
  have h2 : (l1 ++ a :: (l2 ++ [z]))[l1.length + (l2.length + 1)]? = some z := by
    rw [List.getElem?_append_right (by omega)]
    simp
  rw [hlen]
  simp only [iterSwap, h1, h2]
  have h3 : (l1 ++ a :: (l2 ++ [z])).set l1.length z = l1 ++ z :: (l2 ++ [z]) := by
    simp [List.set_append]
  rw [h3]
  have h4 : (l1 ++ z :: (l2 ++ [z])).set (l1.length + (l2.length + 1)) a
      = l1 ++ z :: (l2 ++ [a]) := by
    simp [List.set_append]
  rw [h4]
  have : l1 ++ z :: (l2 ++ [a]) = (l1 ++ z :: l2) ++ [a] := by simp
  rw [this, List.dropLast_concat]
  simp

/-- Every vector holding `a` splits at the first occurrence of `a`, which is either in the last
slot or followed by a non-empty rest. -/
theorem split_at_first (v : List Actor) (a : Actor) (h : a ∈ v) :
    (∃ l1, v = l1 ++ [a] ∧ a ∉ l1) ∨
    (∃ l1 l2 z, v = l1 ++ a :: (l2 ++ [z]) ∧ a ∉ l1) := by
  obtain ⟨l1, r, hv, hn⟩ := List.eq_append_cons_of_mem h
  rcases List.eq_nil_or_concat r with hr | ⟨l2, z, hr⟩
  · left; exact ⟨l1, by rw [hv, hr], hn⟩
  · right; refine ⟨l1, l2, z, ?_, hn⟩
    rw [hv, hr, List.concat_eq_append]

theorem swapRemove_of_not_mem (v : List Actor) (a : Actor) (h : a ∉ v) :
    swapRemove v a = v := by
  unfold swapRemove
  have : ¬ v.indexOf a < v.length := by
    rw [List.indexOf_lt_length]; exact h
  simp [this]

theorem swapRemove_perm_erase (v : List Actor) (a : Actor) (h : a ∈ v) :
    (swapRemove v a).Perm (v.erase a) := by
  rcases split_at_first v a h with ⟨l1, hv, hn⟩ | ⟨l1, l2, z, hv, hn⟩
  · subst hv
    rw [swapRemove_last l1 a hn, List.erase_append_right _ hn]
    simp
  · subst hv
    rw [swapRemove_mid l1 l2 a z hn, List.erase_append_right _ hn]
    simp only [List.erase_cons_head]
    exact List.Perm.append_left l1 (List.perm_append_singleton z l2).symm

theorem swapRemove_eq_set (v : List Actor) (a z : Actor) (h : a ∈ v)
    (hz : v.getLast? = some z) :
    swapRemove v a = (v.set (v.indexOf a) z).dropLast := by
  rcases split_at_first v a h with ⟨l1, hv, hn⟩ | ⟨l1, l2, y, hv, hn⟩
  · subst hv
    have hza : z = a := by simpa using hz.symm
    subst hza
    rw [swapRemove_last l1 z hn, indexOf_split l1 [] z hn]
    simp [List.set_append]
  · subst hv
    have hzy : z = y := by
      have e : l1 ++ a :: (l2 ++ [y]) = (l1 ++ a :: l2) ++ [y] := by simp
      rw [e, List.getLast?_concat] at hz
      exact (Option.some.inj hz).symm
    subst hzy
    rw [swapRemove_mid l1 l2 a z hn, indexOf_split l1 (l2 ++ [z]) a hn]
    have h3 : (l1 ++ a :: (l2 ++ [z])).set l1.length z = (l1 ++ z :: l2) ++ [z] := by
      simp [List.set_append]
    rw [h3, List.dropLast_concat]

theorem swapRemove_length (v : List Actor) (a : Actor) (h : a ∈ v) :
    (swapRemove v a).length + 1 = v.length := by
  rw [(swapRemove_perm_erase v a h).length_eq, List.length_erase_of_mem h]
  have := List.length_pos_of_mem h
  omega

theorem swapRemove_count_self (v : List Actor) (a : Actor) :
    (swapRemove v a).count a = v.count a - 1 := by
  by_cases h : a ∈ v
  · rw [(swapRemove_perm_erase v a h).count_eq, List.count_erase_self]
  · rw [swapRemove_of_not_mem v a h, List.count_eq_zero_of_not_mem h]

theorem swapRemove_count_of_ne (v : List Actor) (a b : Actor) (hb : b ≠ a) :
    (swapRemove v a).count b = v.count b := by
  by_cases h : a ∈ v
  · rw [(swapRemove_perm_erase v a h).count_eq, List.count_erase_of_ne hb]
  · rw [swapRemove_of_not_mem v a h]

theorem swapRemove_subset (v : List Actor) (a x : Actor) (hx : x ∈ swapRemove v a) :
    x ∈ v := by
  by_cases h : a ∈ v
  · exact List.mem_of_mem_erase ((swapRemove_perm_erase v a h).mem_iff.mp hx)
  · rwa [swapRemove_of_not_mem v a h] at hx

theorem RemoveActor_actors (g : Game) (a : Actor) :
    (RemoveActor g a).actors = swapRemove g.actors a := rfl

theorem RemoveActor_pendingActors (g : Game) (a : Actor) :
    (RemoveActor g a).pendingActors = swapRemove g.pendingActors a := rfl

theorem RemoveActor_updatingActors (g : Game) (a : Actor) :
    (RemoveActor g a).updatingActors = g.updatingActors := rfl

/-! ## `AddActor` and `RemoveActor` -/

/-- C2, as stated, fails: with `updatingActors` set and actor 1 in the live set `[1]`,
`RemoveActor` takes the actor out of the live set at once. -/
theorem RemoveActor_not_buffered :
    (Game.mk [1] [] true).updatingActors = true ∧
    (RemoveActor (Game.mk [1] [] true) 1).actors ≠ (Game.mk [1] [] true).actors := by
  decide

/-- C2, amended: while `updatingActors` is set, `AddActor` leaves the live set as it is and
appends the actor to `pendingActors`; `RemoveActor` leaves the live set as it is when the actor
does not occur in it, and otherwise takes one occurrence of the actor out of the live set
immediately. -/
theorem updating_AddActor_buffers (g : Game) (actor : Actor)
    (h : g.updatingActors = true) :
    (AddActor g actor).actors = g.actors ∧
    (AddActor g actor).pendingActors = g.pendingActors ++ [actor] ∧
    (actor ∉ g.actors → (RemoveActor g actor).actors = g.actors) ∧
    (actor ∈ g.actors →
      (RemoveActor g actor).actors.length + 1 = g.actors.length ∧
      (RemoveActor g actor).actors.count actor + 1 = g.actors.count actor) := by
  refine ⟨?_, ?_, ?_, ?_⟩
  · simp [AddActor, h]
  · simp [AddActor, h]
  · intro hn
    rw [RemoveActor_actors, swapRemove_of_not_mem _ _ hn]
  · intro hm
    rw [RemoveActor_actors]
    refine ⟨swapRemove_length _ _ hm, ?_⟩
    rw [swapRemove_count_self]
    have := List.count_pos_iff.mpr hm
    omega

/-- The amended C2 at a concrete state: live set `[1, 2]`, pending queue `[3]`, actor 2. -/
theorem updating_AddActor_buffers_witness :
    (AddActor (Game.mk [1, 2] [3] true) 2).actors = [1, 2] ∧
    (AddActor (Game.mk [1, 2] [3] true) 2).pendingActors = [3, 2] ∧
    (RemoveActor (Game.mk [1, 2] [3] true) 2).actors.length + 1 = 2 := by
  have h := updating_AddActor_buffers (Game.mk [1, 2] [3] true) 2 rfl
  exact ⟨h.1, h.2.1, (h.2.2.2 (by decide)).1⟩

/-- C4, as stated, fails: actor 1 occurs twice in the live set `[1, 1]`, and after
`RemoveActor` it still occurs there. -/
theorem RemoveActor_leaves_duplicate :
    1 ∈ (RemoveActor (Game.mk [1, 1] [] false) 1).actors := by
  decide

/-- C4, amended: `RemoveActor` takes exactly one occurrence of the actor out of each
collection that holds it; so an actor that occurs at most once in the live set and at most once
in the pending queue occurs in neither after the call. -/
theorem RemoveActor_removes_one (g : Game) (actor : Actor) :
    (RemoveActor g actor).actors.count actor = g.actors.count actor - 1 ∧
    (RemoveActor g actor).pendingActors.count actor = g.pendingActors.count actor - 1 ∧
    (g.actors.count actor ≤ 1 → g.pendingActors.count actor ≤ 1 →
      actor ∉ (RemoveActor g actor).actors ∧ actor ∉ (RemoveActor g actor).pendingActors) := by
  have h1 : (RemoveActor g actor).actors.count actor = g.actors.count actor - 1 := by
    rw [RemoveActor_actors, swapRemove_count_self]
  have h2 : (RemoveActor g actor).pendingActors.count actor
      = g.pendingActors.count actor - 1 := by
    rw [RemoveActor_pendingActors, swapRemove_count_self]
  refine ⟨h1, h2, fun ha hp => ⟨?_, ?_⟩⟩
  · rw [← List.count_eq_zero]; omega
  · rw [← List.count_eq_zero]; omega

/-- The amended C4 at a concrete state: actor 2 occurs once in the live set `[1, 2, 3]` and
once in the pending queue `[2, 4]`. -/
theorem RemoveActor_removes_one_witness :
    2 ∉ (RemoveActor (Game.mk [1, 2, 3] [2, 4] false) 2).actors ∧
    2 ∉ (RemoveActor (Game.mk [1, 2, 3] [2, 4] false) 2).pendingActors :=
  (RemoveActor_removes_one (Game.mk [1, 2, 3] [2, 4] false) 2).2.2 (by decide) (by decide)

/-- C5: `RemoveActor` on an actor that occurs in neither collection returns the game
unchanged; hence, after a call that has left the actor in neither collection, a second call
with the same actor changes nothing. That is the case, in particular, whenever the actor
occurred at most once in each collection before the first call. -/
theorem RemoveActor_absent (g : Game) (actor : Actor) :
    (actor ∉ g.actors → actor ∉ g.pendingActors → RemoveActor g actor = g) ∧
    (actor ∉ (RemoveActor g actor).actors → actor ∉ (RemoveActor g actor).pendingActors →
      RemoveActor (RemoveActor g actor) actor = RemoveActor g actor) ∧
    (g.actors.count actor ≤ 1 → g.pendingActors.count actor ≤ 1 →
      RemoveActor (RemoveActor g actor) actor = RemoveActor g actor) := by
  have key : ∀ g' : Game, actor ∉ g'.actors → actor ∉ g'.pendingActors →
      RemoveActor g' actor = g' := by
    intro g' ha hp
    cases g' with
    | mk l p u =>
      simp only [RemoveActor]
      simp only [] at ha hp
      rw [swapRemove_of_not_mem l actor ha, swapRemove_of_not_mem p actor hp]
  refine ⟨key g, key (RemoveActor g actor), fun ha hp => key (RemoveActor g actor) ?_ ?_⟩
  · rw [← List.count_eq_zero, RemoveActor_actors, swapRemove_count_self]; omega
  · rw [← List.count_eq_zero, RemoveActor_pendingActors, swapRemove_count_self]; omega

/-- C5 at concrete states: actor 9 is absent from `[1, 2]` and `[3]`; actor 1 is removed from
`[1, 2]` by a first call, and a second call changes nothing. -/
theorem RemoveActor_absent_witness :
    RemoveActor (Game.mk [1, 2] [3] false) 9 = Game.mk [1, 2] [3] false ∧
    RemoveActor (RemoveActor (Game.mk [1, 2] [3] false) 1) 1
      = RemoveActor (Game.mk [1, 2] [3] false) 1 :=
  ⟨(RemoveActor_absent (Game.mk [1, 2] [3] false) 9).1 (by decide) (by decide),
   (RemoveActor_absent (Game.mk [1, 2] [3] false) 1).2.1 (by decide) (by decide)⟩

/-- C10: `RemoveActor` removes by swap-with-last. For an actor in the live set and not in the
pending queue, the pending queue is unchanged and the new live set is the old one with its last
element written into the slot of the actor's first occurrence and the last slot dropped; it is
one element shorter, holds the actor once fewer, holds every other actor as often as before,
and is a permutation of the old live set with one occurrence of the actor erased. The same
description holds of the pending queue whenever the actor occurs there. -/
theorem RemoveActor_swap_with_last (g : Game) (actor : Actor) :
    (actor ∈ g.actors → actor ∉ g.pendingActors →
      (RemoveActor g actor).pendingActors = g.pendingActors ∧
      (∀ last, g.actors.getLast? = some last →
        (RemoveActor g actor).actors
          = (g.actors.set (g.actors.indexOf actor) last).dropLast) ∧
      (RemoveActor g actor).actors.length + 1 = g.actors.length ∧
      (RemoveActor g actor).actors.count actor + 1 = g.actors.count actor ∧
      (∀ other, other ≠ actor →
        (RemoveActor g actor).actors.count other = g.actors.count other) ∧
      ((RemoveActor g actor).actors).Perm (g.actors.erase actor)) ∧
    (actor ∈ g.pendingActors →
      (∀ last, g.pendingActors.getLast? = some last →
        (RemoveActor g actor).pendingActors
          = (g.pendingActors.set (g.pendingActors.indexOf actor) last).dropLast) ∧
      (RemoveActor g actor).pendingActors.length + 1 = g.pendingActors.length ∧
      (RemoveActor g actor).pendingActors.count actor + 1 = g.pendingActors.count actor ∧
      (∀ other, other ≠ actor →
        (RemoveActor g actor).pendingActors.count other = g.pendingActors.count other) ∧
      ((RemoveActor g actor).pendingActors).Perm (g.pendingActors.erase actor)) := by
  have key : ∀ v : List Actor, actor ∈ v →
      (∀ last, v.getLast? = some last →
        swapRemove v actor = (v.set (v.indexOf actor) last).dropLast) ∧
      (swapRemove v actor).length + 1 = v.length ∧
      (swapRemove v actor).count actor + 1 = v.count actor ∧
      (∀ other, other ≠ actor → (swapRemove v actor).count other = v.count other) ∧
      (swapRemove v actor).Perm (v.erase actor) := by
    intro v hm
    refine ⟨fun last hl => swapRemove_eq_set v actor last hm hl, swapRemove_length v actor hm,
      ?_, fun other ho => swapRemove_count_of_ne v actor other ho,
      swapRemove_perm_erase v actor hm⟩
    rw [swapRemove_count_self]
    have := List.count_pos_iff.mpr hm
    omega
  refine ⟨fun ha hp => ⟨?_, ?_⟩, fun hp => ?_⟩
  · rw [RemoveActor_pendingActors, swapRemove_of_not_mem _ _ hp]
  · simpa only [RemoveActor_actors] using key g.actors ha
  · simpa only [RemoveActor_pendingActors] using key g.pendingActors hp

/-- C10 at a concrete state: removing actor 1 from the live set `[1, 2, 3]` gives `[3, 2]`,
so the order of the remaining actors is not kept. -/
theorem RemoveActor_swap_with_last_witness :
    (RemoveActor (Game.mk [1, 2, 3] [4] false) 1).pendingActors = [4] ∧
    (RemoveActor (Game.mk [1, 2, 3] [4] false) 1).actors = [3, 2] := by
  have h := (RemoveActor_swap_with_last (Game.mk [1, 2, 3] [4] false) 1).1
    (by decide) (by decide)
  exact ⟨h.1, h.2.1 3 rfl⟩

/-! ## The update pass -/

theorem PassInv_call (live : List Actor) (s : Pass) (c : Call) (h : PassInv live s) :
    PassInv live (s.call c) := by
  obtain ⟨hu, ha, hs, hv⟩ := h
  cases c with
  | AddActor actor =>
    refine ⟨?_, ?_, hs, hv⟩
    · simp [Pass.call, AddActor, hu]
    · simpa [Pass.call, AddActor, hu] using ha
  | RemoveActor actor =>
    refine ⟨hu, ?_, ?_, hv⟩
    · intro x hx
      exact ha x (swapRemove_subset _ _ _ hx)
    · intro x hx
      simp only [Pass.call] at hx
      split at hx
      · rcases List.mem_cons.mp hx with rfl | hx
        · exact ha _ ‹_›
        · exact hs x hx
      · exact hs x hx

theorem PassInv_calls (live : List Actor) (cs : List Call) :
    ∀ s : Pass, PassInv live s → PassInv live (cs.foldl Pass.call s) := by
  induction cs with
  | nil => intro s h; exact h
  | cons c cs ih => intro s h; exact ih _ (PassInv_call live s c h)

theorem PassInv_updateLoop (update : Nat → Actor → Game → List Call) (live : List Actor) :
    ∀ (n i : Nat) (s : Pass), PassInv live s → PassInv live (updateLoop update n i s) := by
  intro n
  induction n with
  | zero => intro i s h; exact h
  | succ n ih =>
    intro i s h
    simp only [updateLoop]
    split
    · exact h
    · next actor hget =>
      apply ih
      apply PassInv_calls
      obtain ⟨hu, ha, hs, hv⟩ := h
      refine ⟨hu, ha, hs, ?_⟩
      intro x hx
      rcases List.mem_append.mp hx with hx | hx
      · exact hv x hx
      · have hxa : x = actor := by simpa using hx
        subst hxa
        have hmem : x ∈ s.game.actors ++ s.stale := List.getElem?_mem hget
        rcases List.mem_append.mp hmem with hm | hm
        · exact ha x hm
        · exact hs x hm

/-- Every actor that the update pass calls `Update` on was in the live set when the pass
began. -/
theorem updatePass_updated_subset (update : Nat → Actor → Game → List Call) (g : Game) :
    ∀ x ∈ (updatePass update g).updated, x ∈ g.actors := by
  have h := PassInv_updateLoop update g.actors g.actors.length 0
    { game := { g with updatingActors := true }, stale := [], updated := [], added := [] }
    ⟨rfl, fun x hx => hx, fun x hx => by simp at hx, fun x hx => by simp at hx⟩
  exact h.2.2.2

/-- C1, as stated, fails: with live set `[1, 2]`, the `Update` of actor 1 passes actor 2 to
`AddActor` during the pass, and the same pass then calls `Update` on actor 2. -/
theorem added_live_actor_updated :
    2 ∈ (updatePass addsActor2 (Game.mk [1, 2] [] false)).added ∧
    2 ∈ (updatePass addsActor2 (Game.mk [1, 2] [] false)).updated := by
  decide

/-- C1, amended: for every live set, pending queue and behaviour of the actors' `Update` calls,
an actor passed to `AddActor` during the update pass that was not in the live set when the
pass began has no `Update` called on it by that pass. -/
theorem added_new_actor_not_updated (update : Nat → Actor → Game → List Call) (g : Game)
    (actor : Actor) (hadd : actor ∈ (updatePass update g).added)
    (hnew : actor ∉ g.actors) :
    actor ∉ (updatePass update g).updated := by
  have _ := hadd
  exact fun hupd => hnew (updatePass_updated_subset update g actor hupd)

/-- The amended C1 at a concrete pass: live set `[1, 2]`, actor 1 removes itself and adds the
new actor 3, which is not updated. -/
theorem added_new_actor_not_updated_witness :
    3 ∈ (updatePass removesSelfAddsActor3 (Game.mk [1, 2] [] false)).added ∧
    3 ∉ (updatePass removesSelfAddsActor3 (Game.mk [1, 2] [] false)).updated :=
  ⟨by decide,
   added_new_actor_not_updated removesSelfAddsActor3 (Game.mk [1, 2] [] false) 3
     (by decide) (by decide)⟩

/-! ## Pending drain and dead reap -/

theorem drain_foldl (P : List Actor) :
    ∀ (L : List Actor) (log : List Event),
      P.foldl
        (fun (acc : List Actor × List Event) pending =>
          (acc.1 ++ [pending],
           acc.2 ++ [Event.ComputeWorldTransform pending, Event.emplace_back pending]))
        (L, log)
      = (L ++ P,
         log ++ P.flatMap
           (fun p => [Event.ComputeWorldTransform p, Event.emplace_back p])) := by
  induction P with
  | nil => intro L log; simp
  | cons p P ih =>
    intro L log
    rw [List.foldl_cons, ih]
    simp

theorem collectDead_foldl (GetState : Actor → ActorState) (actors : List Actor) :
    ∀ dead : List Actor,
      actors.foldl
        (fun deadActors actor =>
          if GetState actor = ActorState.Dead then deadActors ++ [actor] else deadActors)
        dead
      = dead ++ actors.filter (fun a => decide (GetState a = ActorState.Dead)) := by
  induction actors with
  | nil => intro dead; simp
  | cons a actors ih =>
    intro dead
    rw [List.foldl_cons, ih]
    by_cases h : GetState a = ActorState.Dead
    · simp [h]
    · simp [h]

theorem collectDead_eq_filter (GetState : Actor → ActorState) (actors : List Actor) :
    collectDead GetState actors
      = actors.filter (fun a => decide (GetState a = ActorState.Dead)) := by
  unfold collectDead
  rw [collectDead_foldl]
  simp

theorem deleteDead_foldl (dead : List Actor) :
    ∀ log : List Event,
      dead.foldl (fun log actor => log ++ [Event.delete actor]) log
      = log ++ dead.map Event.delete := by
  induction dead with
  | nil => intro log; simp
  | cons a dead ih =>
    intro log
    rw [List.foldl_cons, ih]
    simp

theorem deleteDead_eq_map (dead : List Actor) :
    deleteDead dead = dead.map Event.delete := by
  unfold deleteDead
  rw [deleteDead_foldl]
  simp

/-- C3: from the end of the update pass, with live set `L` and pending queue `P`,
`UpdateGame` first appends `P` in order to the live set (computing each pending actor's world
transform just before appending it) and clears the pending queue, so that the live set is
`L ++ P` and the pending queue empty when the scan for dead actors starts; all deletions come
after that, and they are exactly the Dead actors of `L ++ P`, in live-set order. -/
theorem afterPass_drains_then_reaps (GetState : Actor → ActorState) (g : Game) :
    (afterPass GetState g).1.actors = g.actors ++ g.pendingActors ∧
    (afterPass GetState g).1.pendingActors = [] ∧
    (afterPass GetState g).2
      = g.pendingActors.flatMap
          (fun p => [Event.ComputeWorldTransform p, Event.emplace_back p])
        ++ [Event.clear]
        ++ ((g.actors ++ g.pendingActors).filter
              (fun a => decide (GetState a = ActorState.Dead))).map Event.delete := by
  simp only [afterPass, drainPending, drain_foldl, collectDead_eq_filter, deleteDead_eq_map]
  simp

/-! ## Delta time -/

theorem subU32_of_le (a b : Nat) (ha : a < 2 ^ 32) (hb : b ≤ a) : subU32 a b = a - b := by
  unfold subU32
  norm_num at ha ⊢
  omega

/-- For a reading `t` not before `ticksCount`, the test of the busy-wait succeeds only once 16 ms
have elapsed. -/
theorem ticks_passed_elapsed (t ticksCount : Nat) (h : ticksCount ≤ t)
    (hp : SDL_TICKS_PASSED t ((ticksCount + 16) % 2 ^ 32) = true) :
    ticksCount + 16 ≤ t := by
  unfold SDL_TICKS_PASSED toSint32 subU32 at hp
  norm_num at hp
  split at hp <;> omega

/-- For a reading `t` not before `ticksCount`, the test of the busy-wait succeeds when between
16 ms and 16 ms + 2^31 ms have elapsed. -/
theorem ticks_passed_of_elapsed (t ticksCount : Nat)
    (h1 : ticksCount + 16 ≤ t) (h2 : t ≤ ticksCount + 16 + 2 ^ 31) :
    SDL_TICKS_PASSED t ((ticksCount + 16) % 2 ^ 32) = true := by
  unfold SDL_TICKS_PASSED toSint32 subU32
  norm_num at h2 ⊢
  split <;> omega

theorem busyWait_some (clock : Nat → Nat) (ticksCount : Nat) :
    ∀ (fuel k j : Nat), busyWait clock ticksCount fuel k = some j →
      k ≤ j ∧ j < k + fuel ∧
      SDL_TICKS_PASSED (clock j) ((ticksCount + 16) % 2 ^ 32) = true ∧
      ∀ i, k ≤ i → i < j →
        SDL_TICKS_PASSED (clock i) ((ticksCount + 16) % 2 ^ 32) = false := by
  intro fuel
  induction fuel with
  | zero => intro k j h; simp [busyWait] at h
  | succ fuel ih =>
    intro k j h
    simp only [busyWait] at h
    split at h
    · next hp =>
      have hkj : k = j := Option.some.inj h
      subst hkj
      exact ⟨le_refl _, by omega, hp, fun i h1 h2 => by omega⟩
    · next hp =>
      obtain ⟨h1, h2, h3, h4⟩ := ih (k + 1) j h
      refine ⟨by omega, by omega, h3, ?_⟩
      intro i hki hij
      by_cases hik : i = k
      · subst hik; simpa using hp
      · exact h4 i (by omega) hij

theorem busyWait_isSome (clock : Nat → Nat) (ticksCount : Nat) :
    ∀ (fuel k j : Nat), k ≤ j → j < k + fuel →
      SDL_TICKS_PASSED (clock j) ((ticksCount + 16) % 2 ^ 32) = true →
      (busyWait clock ticksCount fuel k).isSome = true := by
  intro fuel
  induction fuel with
  | zero => intro k j h1 h2; omega
  | succ fuel ih =>
    intro k j h1 h2 hp
    simp only [busyWait]
    split
    · rfl
    · next hnp =>
      have hne : j ≠ k := by
        intro e; subst e; exact hnp hp
      exact ih (k + 1) j (by omega) (by omega) hp

/-- C6: let the clock readings be `Uint32` values that never decrease, `ticksCount` being an
earlier reading of the same clock. Whenever the delta-time computation at the start of
`UpdateGame` produces a result, the delta is at most 0.05 s and at least 0.016 s; the busy-wait
ended at the first reading at least 16 ms after `ticksCount` (every reading before it was
less than 16 ms after); and the new `ticksCount` is the last reading taken, which no earlier
reading exceeds. A result is produced as soon as some reading lies between 16 ms and
16 ms + 2^31 ms after `ticksCount`. -/
theorem deltaTime_bounds (SDL_GetTicks : Nat → Nat) (ticksCount : Nat)
    (hmono : Monotone SDL_GetTicks) (hu32 : ∀ k, SDL_GetTicks k < 2 ^ 32)
    (hprev : ticksCount ≤ SDL_GetTicks 0) :
    (∀ fuel t, computeDeltaTime SDL_GetTicks ticksCount fuel = some t →
      t.deltaTime ≤ 1 / 20 ∧ 16 / 1000 ≤ t.deltaTime ∧
      (∃ k, k < fuel ∧ t.readings = k + 3 ∧ ticksCount + 16 ≤ SDL_GetTicks k ∧
        (∀ j, j < k → SDL_GetTicks j < ticksCount + 16) ∧
        t.deltaTime = min (((SDL_GetTicks (k + 1) - ticksCount : Nat) : ℚ) / 1000) (1 / 20) ∧
        t.ticksCount = SDL_GetTicks (k + 2)) ∧
      (∀ j, j < t.readings → SDL_GetTicks j ≤ t.ticksCount)) ∧
    (∀ k fuel, k < fuel → ticksCount + 16 ≤ SDL_GetTicks k →
      SDL_GetTicks k ≤ ticksCount + 16 + 2 ^ 31 →
      (computeDeltaTime SDL_GetTicks ticksCount fuel).isSome = true) := by
  have hge : ∀ k, ticksCount ≤ SDL_GetTicks k := fun k =>
    le_trans hprev (hmono (Nat.zero_le k))
  constructor
  · intro fuel t ht
    unfold computeDeltaTime at ht
    cases hw : busyWait SDL_GetTicks ticksCount fuel 0 with
    | none => rw [hw] at ht; simp at ht
    | some k =>
      rw [hw] at ht
      simp only [Option.some.injEq] at ht
      obtain ⟨_, hk, hp, hnp⟩ := busyWait_some SDL_GetTicks ticksCount fuel 0 k hw
      have h16 : ticksCount + 16 ≤ SDL_GetTicks k :=
        ticks_passed_elapsed _ _ (hge k) hp
      have h16' : ticksCount + 16 ≤ SDL_GetTicks (k + 1) :=
        le_trans h16 (hmono (Nat.le_succ k))
      have hsub : subU32 (SDL_GetTicks (k + 1)) ticksCount
          = SDL_GetTicks (k + 1) - ticksCount :=
        subU32_of_le _ _ (hu32 _) (hge _)
      have hq : (16 : ℚ) ≤ ((SDL_GetTicks (k + 1) - ticksCount : Nat) : ℚ) := by
        have : 16 ≤ SDL_GetTicks (k + 1) - ticksCount := by omega
        exact_mod_cast this
      have hd : t.deltaTime
          = min (((SDL_GetTicks (k + 1) - ticksCount : Nat) : ℚ) / 1000) (1 / 20) := by
        rw [← ht, hsub]
        simp only []
        split
        · next hgt => rw [min_eq_right (le_of_lt hgt)]
        · next hle => rw [min_eq_left (not_lt.mp hle)]
      have htc : t.ticksCount = SDL_GetTicks (k + 2) := by rw [← ht]
      have hr : t.readings = k + 3 := by rw [← ht]
      refine ⟨?_, ?_, ⟨k, by omega, hr, h16, ?_, hd, htc⟩, ?_⟩
      · rw [hd]; exact min_le_right _ _
      · rw [hd]
        apply le_min
        · rw [div_le_div_iff_of_pos_right (by norm_num)]; exact hq
        · norm_num
      · intro j hj
        by_contra hcon
        have hj16 : ticksCount + 16 ≤ SDL_GetTicks j := by omega
        have hjk : SDL_GetTicks j ≤ SDL_GetTicks k := hmono (le_of_lt hj)
        have hfar : SDL_GetTicks k ≤ ticksCount + 16 + 2 ^ 31 := by
          by_contra hc
          unfold SDL_TICKS_PASSED toSint32 subU32 at hp
          have := hu32 k
          norm_num at this hp hc
          split at hp <;> omega
        have := ticks_passed_of_elapsed (SDL_GetTicks j) ticksCount hj16 (by omega)
        rw [hnp j (Nat.zero_le j) hj] at this
        exact Bool.noConfusion this
      · intro j hj
        rw [htc]
        exact hmono (by omega)
  · intro k fuel hk h1 h2
    have hp := ticks_passed_of_elapsed (SDL_GetTicks k) ticksCount h1 h2
    have hs := busyWait_isSome SDL_GetTicks ticksCount fuel 0 k (Nat.zero_le k) (by omega) hp
    unfold computeDeltaTime
    cases hw : busyWait SDL_GetTicks ticksCount fuel 0 with
    | none => rw [hw] at hs; simp at hs
    | some j => rfl

theorem steadyClock_mono : Monotone steadyClock := by
  intro a b hab
  simp only [steadyClock]
  omega

/-- C6 at a concrete clock: readings 100, 105, 110, ... after a previous timestamp of 100. The
wait ends at the reading 120, the delta is 25 ms, and `ticksCount` becomes 130. -/
theorem deltaTime_bounds_witness :
    computeDeltaTime steadyClock 100 10
      = some { deltaTime := 1 / 40, ticksCount := 130, readings := 7 } ∧
    ((1 : ℚ) / 40 ≤ 1 / 20 ∧ (16 : ℚ) / 1000 ≤ 1 / 40) := by
  have hw : busyWait steadyClock 100 10 0 = some 4 := by decide
  have heq : computeDeltaTime steadyClock 100 10
      = some { deltaTime := 1 / 40, ticksCount := 130, readings := 7 } := by
    simp only [computeDeltaTime, hw]
    have h5 : subU32 (steadyClock (4 + 1)) 100 = 25 := by decide
    have h6 : steadyClock (4 + 2) = 130 := by decide
    rw [h5, h6]
    norm_num
  have h := (deltaTime_bounds steadyClock 100 steadyClock_mono
    (fun k => by simp only [steadyClock]; omega) (by decide)).1 10 _ heq
  exact ⟨heq, h.1, h.2.1⟩

/-! ## `MoveComponent::Update` -/

end Bones
